import Mathlib

/-!
Verification development for the SchNet representation module
(`src/schnetpack/representation/schnet.py`).

Tensors are embedded as nested lists of scalars.  The scalar type stands
in for the real scalars of the source; it is instantiated with `Int`,
which the kernel can evaluate: every claim settled here concerns data
flow, identity of outputs, success versus failure, or tensor shapes, and
none of them depends on the scalar arithmetic being a field (the two
division sites — filter normalization and the dead charge branch — are
not exercised by any claim).  Non-integer numeric functions (square root,
the smooth nonlinearity, the Gaussian basis expansion) are carried as
explicit function parameters.  Fallible tensor operations (shape
mismatches, index errors) return `Option`.

The component modules imported by `schnet.py` (`Dense`, `CFConv`,
`HardCutoff`, `GaussianSmearing`, `AtomDistances`, `shifted_softplus`)
are not part of the repository snapshot; they are modelled from the spec
(sections 4.1 to 4.5), as marked on each definition.
-/

set_option autoImplicit false

namespace SPK

universe u v

/-- Scalar values: a computable stand-in for the real scalars. -/
abbrev Q := ℤ

/-- A vector (last tensor dimension). -/
abbrev T1 := List Q

/-- A matrix, e.g. one structure's per-atom data. -/
abbrev T2 := List T1

/-- A rank-3 tensor (batch, atom, feature or neighbor). -/
abbrev T3 := List T2

/-- A rank-4 tensor (batch, atom, neighbor, basis). -/
abbrev T4 := List T3

/-- A rank-1 integer tensor. -/
abbrev N1 := List Nat

/-- A rank-2 integer tensor. -/
abbrev N2 := List N1

/-- A rank-3 integer tensor (neighbor indices). -/
abbrev N3 := List N2

/-- Map a fallible function over a list, failing if any element fails. -/
def omap {α : Type u} {β : Type v} (f : α → Option β) : List α → Option (List β)
  | [] => some []
  | a :: as => (f a).bind fun b => (omap f as).bind fun bs => some (b :: bs)

theorem omap_nil {α : Type u} {β : Type v} (f : α → Option β) : omap f [] = some [] := rfl

theorem omap_cons {α : Type u} {β : Type v} (f : α → Option β) (a : α) (as : List α) :
    omap f (a :: as) =
      (f a).bind fun b => (omap f as).bind fun bs => some (b :: bs) := rfl

theorem omap_length {α : Type u} {β : Type v} (f : α → Option β) :
    ∀ {xs : List α} {ys : List β}, omap f xs = some ys → ys.length = xs.length := by
  intro xs
  induction xs with
  | nil => intro ys h; simp [omap] at h; simp [← h]
  | cons a as ih =>
    intro ys h
    simp only [omap, Option.bind_eq_some, Option.some.injEq] at h
    obtain ⟨b, _, bs, hbs, hys⟩ := h
    simp [← hys, ih hbs]

theorem omap_mem {α : Type u} {β : Type v} (f : α → Option β) :
    ∀ {xs : List α} {ys : List β}, omap f xs = some ys →
      ∀ {b : β}, b ∈ ys → ∃ a ∈ xs, f a = some b := by
  intro xs
  induction xs with
  | nil => intro ys h b hb; simp [omap] at h; subst h; simp at hb
  | cons a as ih =>
    intro ys h b hb
    simp only [omap, Option.bind_eq_some, Option.some.injEq] at h
    obtain ⟨b0, hb0, bs, hbs, hys⟩ := h
    subst hys
    rcases List.mem_cons.mp hb with h1 | h2
    · exact ⟨a, List.mem_cons_self _ _, h1 ▸ hb0⟩
    · obtain ⟨a1, ha1, hfa1⟩ := ih hbs h2
      exact ⟨a1, List.mem_cons_of_mem _ ha1, hfa1⟩

/-- Zip two lists, failing unless they have the same length (the embedding
of elementwise tensor operations that require matching extents). -/
def zipSame {α : Type u} {β : Type v} : List α → List β → Option (List (α × β))
  | [], [] => some []
  | a :: as, b :: bs => (zipSame as bs).map (fun l => (a, b) :: l)
  | [], _ :: _ => none
  | _ :: _, [] => none

theorem zipSame_length {α : Type u} {β : Type v} :
    ∀ {xs : List α} {ys : List β} {zs : List (α × β)}, zipSame xs ys = some zs →
      zs.length = xs.length ∧ ys.length = xs.length := by
  intro xs
  induction xs with
  | nil =>
    intro ys zs h
    cases ys with
    | nil => simp [zipSame] at h; simp [← h]
    | cons b bs => simp [zipSame] at h
  | cons a as ih =>
    intro ys zs h
    cases ys with
    | nil => simp [zipSame] at h
    | cons b bs =>
      simp only [zipSame, Option.map_eq_some'] at h
      obtain ⟨l, hl, hzs⟩ := h
      obtain ⟨h1, h2⟩ := ih hl
      simp [← hzs, h1, h2]

theorem zipSame_mem {α : Type u} {β : Type v} :
    ∀ {xs : List α} {ys : List β} {zs : List (α × β)}, zipSame xs ys = some zs →
      ∀ {p : α × β}, p ∈ zs → p.1 ∈ xs ∧ p.2 ∈ ys := by
  intro xs
  induction xs with
  | nil =>
    intro ys zs h p hp
    cases ys with
    | nil => simp [zipSame] at h; subst h; simp at hp
    | cons b bs => simp [zipSame] at h
  | cons a as ih =>
    intro ys zs h p hp
    cases ys with
    | nil => simp [zipSame] at h
    | cons b bs =>
      simp only [zipSame, Option.map_eq_some'] at h
      obtain ⟨l, hl, hzs⟩ := h
      subst hzs
      rcases List.mem_cons.mp hp with h1 | h2
      · subst h1; exact ⟨List.mem_cons_self _ _, List.mem_cons_self _ _⟩
      · obtain ⟨h3, h4⟩ := ih hl h2
        exact ⟨List.mem_cons_of_mem _ h3, List.mem_cons_of_mem _ h4⟩

/-- Dot product of two vectors (truncating at the shorter one; callers
check lengths beforehand, as `torch.nn.Linear` does). -/
def dotL (u v : T1) : Q := ((u.zip v).map fun p => p.1 * p.2).sum

/-- Modelled from the spec: `Dense` (from `schnetpack.nn.base`, not in the
snapshot), section 4.4: an affine layer `v ↦ W v + b`, optionally followed
by a nonlinearity.  `inF` is the expected input width, checked on
application as `torch.nn.Linear` checks its last dimension. -/
structure DenseL where
  inF : Nat
  weight : T2
  bias : T1

/-- Modelled from the spec: apply a `Dense` layer to one vector, with
`act` the optional nonlinearity; fails when the input width mismatches. -/
def denseVec (act : Option (Q → Q)) (d : DenseL) (v : T1) : Option T1 :=
  if v.length = d.inF then
    let raw := (d.weight.zip d.bias).map fun p => dotL p.1 v + p.2
    some (match act with
      | none => raw
      | some f => raw.map f)
  else none

/-- Apply a `Dense` layer over the last dimension of a rank-3 tensor. -/
def denseApply (act : Option (Q → Q)) (d : DenseL) (t : T3) : Option T3 :=
  omap (fun row => omap (denseVec act d) row) t

/-- Modelled from the spec: `nn.Embedding` lookup (`self.embedding`),
mapping each atomic number to the corresponding table row; fails when an
atomic number is at least the table size (`max_z`). -/
def embedApply (tbl : T2) (z : N2) : Option T3 :=
  omap (fun row => omap (fun n => tbl.get? n) row) z

/-- `torch.cat((p, e), 2)`: concatenate two rank-3 tensors along the last
dimension; fails unless the first two dimensions agree. -/
def cat2 (p e : T3) : Option T3 :=
  (zipSame p e).bind fun bs =>
    omap (fun pb => (zipSame pb.1 pb.2).map (List.map fun q => q.1 ++ q.2)) bs

/-- Elementwise addition of vectors of equal length. -/
def addVecO (a b : T1) : Option T1 :=
  (zipSame a b).map (List.map fun p => p.1 + p.2)

/-- Elementwise subtraction of vectors of equal length. -/
def subVecO (a b : T1) : Option T1 :=
  (zipSame a b).map (List.map fun p => p.1 - p.2)

/-- Elementwise (Hadamard) product of vectors of equal length. -/
def mulVecO (a b : T1) : Option T1 :=
  (zipSame a b).map (List.map fun p => p.1 * p.2)

/-- Elementwise addition of rank-3 tensors (`x + v` in `SchNet.forward`);
fails unless the shapes agree. -/
def addT (x v : T3) : Option T3 :=
  (zipSame x v).bind fun bs =>
    omap (fun pb => (zipSame pb.1 pb.2).bind fun rows => omap (fun q => addVecO q.1 q.2) rows) bs

/-- `tensor[:, :, lo:hi]`: slice the last dimension of a rank-3 tensor;
like Python slicing this clamps instead of failing. -/
def sliceLast (t : T3) (lo hi : Nat) : T3 :=
  t.map (List.map fun v => (v.drop lo).take (hi - lo))

/-- Modelled from the spec: `HardCutoff` (from `schnetpack.nn.cutoff`, not
in the snapshot), section 4.1: weight 1 below the cutoff radius, 0 at and
beyond it. -/
def hardCutoff (cutoff d : Q) : Q :=
  if d < cutoff then 1 else 0

/-- A vector of `n` zeros. -/
def zeroVec (n : Nat) : T1 := List.replicate n 0

/-- Row-vector times matrix, `(o ⬝ c)_j = Σ_i o_i * c_i_j` (used for the
periodic-image shift `offset ⬝ cell`). -/
def matRowMul (o : T1) (c : T2) : Option T1 :=
  (zipSame o c).bind fun rows =>
    match rows.map (fun p => p.2.map fun x => p.1 * x) with
    | [] => some []
    | h :: t => t.foldlM addVecO h

/-- Modelled from the spec: `AtomDistances` (from
`schnetpack.nn.neighbors`, not in the snapshot), section 4.3 — one
atom-neighbor pair: the Euclidean distance between atom position `pa` and
the (possibly periodically-imaged) position of neighbor `nk`, looked up in
the structure's position matrix `pb`.  `sq` is the numeric square root,
kept as a parameter since it is not rational; masked slots yield 0. -/
def distAtomK (sq : Q → Q) (pb : T2) (pa : T1) (cb : Option T2) (nk : Nat)
    (ok : Option T1) (mk : Q) : Option Q := do
  let pn ← pb.get? nk
  let pn2 ← match cb, ok with
    | none, none => some pn
    | some c, some o => (matRowMul o c).bind fun shift => addVecO pn shift
    | _, _ => none
  let dv ← subVecO pn2 pa
  some (if mk = 0 then 0 else sq (dotL dv dv))

/-- Modelled from the spec: distances of one atom to all its neighbor
slots. -/
def distAtom (sq : Q → Q) (pb : T2) (cb : Option T2) (pa : T1) (nb : N1)
    (ob : Option T2) (mb : T1) : Option T1 := do
  let pairs ← zipSame nb mb
  match ob with
  | none => omap (fun q => distAtomK sq pb pa cb q.1 none q.2) pairs
  | some off =>
    (zipSame pairs off).bind (omap fun q => distAtomK sq pb pa cb q.1.1 (some q.2) q.1.2)

/-- Modelled from the spec: distances for one structure of the batch. -/
def distStruct (sq : Q → Q) (pb : T2) (cb : Option T2) (nbrsb : N2)
    (ob : Option T3) (maskb : T2) : Option T2 := do
  let rows ← zipSame nbrsb maskb
  let rows2 ← match ob with
    | none => some (rows.map fun r => (r, (none : Option T2)))
    | some o => (zipSame rows o).map (List.map fun q => (q.1, some q.2))
  omap (fun q => do
      let pa ← pb.get? q.1
      distAtom sq pb cb pa q.2.1.1 q.2.2 q.2.1.2) rows2.enum

/-- Modelled from the spec: `AtomDistances.forward` — given positions,
neighbor indices, optional periodic cell/offsets and the neighbor mask,
the (B, A, K) tensor of interatomic distances, shaped by the neighbor
tensor. -/
def atomDistances (sq : Q → Q) (pos : T3) (nbrs : N3) (cell : Option T3)
    (offs : Option T4) (mask : T3) : Option T3 := do
  let bs ← zipSame nbrs mask
  omap (fun q => do
      let pb ← pos.get? q.1
      let cb ← (match cell with
        | none => some (none : Option T2)
        | some c => (c.get? q.1).map some)
      let ob ← (match offs with
        | none => some (none : Option T3)
        | some o => (o.get? q.1).map some)
      distStruct sq pb cb q.2.1 ob q.2.2) bs.enum

/-- One interaction block's owned weights (`SchNetInteraction.__init__`):
the two-layer filter network, the CFConv's input/output transforms, the
output dense layer, the cutoff radius of its `HardCutoff`, and the
normalization flag. -/
structure Inter where
  filt1 : DenseL
  filt2 : DenseL
  in2f : DenseL
  f2out : DenseL
  dense : DenseL
  cutoff : Q
  normalize_filter : Bool

/-- Modelled from the spec: `CFConv` (from `schnetpack.nn.cfconv`, not in
the snapshot), section 4.5, for one atom: gather each neighbor's feature
vector, apply the input transform, multiply elementwise by the generated
filter and by the scalar cutoff weight, zero out masked slots, sum over
the neighbor dimension, optionally normalize by the count of valid
neighbors (zero vector when there are none), and apply the output
transform with the nonlinearity `ssp`. -/
def cfconvAtom (ssp : Q → Q) (w : Inter) (xb : T2) (ra : T1) (na : N1)
    (ma : T1) (fa : T2) : Option T1 := do
  let k1 ← zipSame ra (← zipSame na (← zipSame ma fa))
  let contribs ← omap (fun q => do
      let xn ← xb.get? q.2.1
      let yn ← denseVec none w.in2f xn
      let w1 ← denseVec (some ssp) w.filt1 q.2.2.2
      let wf ← denseVec none w.filt2 w1
      let c := hardCutoff w.cutoff q.1
      let h ← mulVecO yn wf
      some (h.map fun t => t * c * q.2.2.1)) k1
  let agg ← contribs.foldlM addVecO (zeroVec (w.in2f.weight.zip w.in2f.bias).length)
  let normed := if w.normalize_filter then
      (let cnt := ma.sum
       if cnt = 0 then agg.map (fun _ => 0) else agg.map (fun t => t / cnt))
    else agg
  denseVec (some ssp) w.f2out normed

/-- Modelled from the spec: `CFConv.forward`, batched over structures and
atoms; all of `x`, `r_ij`, `neighbors`, `neighbor_mask`, `f_ij` must agree
on the batch dimension, and the latter four on the atom dimension. -/
def cfconvApply (ssp : Q → Q) (w : Inter) (x rij : T3) (nbrs : N3)
    (mask : T3) (fij : T4) : Option T3 := do
  let bs ← zipSame x (← zipSame rij (← zipSame nbrs (← zipSame mask fij)))
  omap (fun q => do
      let rows ← zipSame q.2.1 (← zipSame q.2.2.1 (← zipSame q.2.2.2.1 q.2.2.2.2))
      omap (fun a => cfconvAtom ssp w q.1 a.1 a.2.1 a.2.2.1 a.2.2.2) rows) bs

/-- `SchNetInteraction.forward` (source lines 60-80): the continuous-filter
convolution followed by the output dense layer (activation `None`). -/
def interactionForward (ssp : Q → Q) (w : Inter) (x rij : T3) (nbrs : N3)
    (mask : T3) (fij : T4) : Option T3 := do
  let v ← cfconvApply ssp w x rij nbrs mask fij
  denseApply none w.dense v

/-- The interaction loop of `SchNet.forward` (source lines 317-321):
`x = x + interaction(x, ...)` for each block in order, also returning the
feature tensor recorded after each block. -/
def interactionLoop (ssp : Q → Q) (ws : List Inter) (x : T3) (rij : T3)
    (nbrs : N3) (mask : T3) (fij : T4) : Option (T3 × List T3) :=
  match ws with
  | [] => some (x, [])
  | w :: rest => do
    let v ← interactionForward ssp w x rij nbrs mask fij
    let x2 ← addT x v
    let p ← interactionLoop ssp rest x2 rij nbrs mask fij
    some (p.1, x2 :: p.2)

/-- The `n_filters` argument of `SchNet.__init__`: either one filter width
for all blocks or a per-block list (source lines 178-222). -/
inductive NFilters where
  | scalar (n : Nat)
  | list (l : List Nat)

/-- The construction-time configuration surface of `SchNet.__init__`
(source lines 123-143), with the source's defaults.  `cutoff_network` is
fixed to the default `HardCutoff`; `trainable_gaussians` and
`distance_expansion` surface only through the `smear` parameter of
`WInit`. -/
structure SchNetConfig where
  n_atom_basis : Nat := 128
  n_filters : NFilters := .scalar 128
  n_interactions : Nat := 3
  cutoff : Q := 5
  n_gaussians : Nat := 25
  normalize_filter : Bool := false
  coupled_interactions : Bool := false
  return_intermediate : Bool := false
  max_z : Nat := 100
  charged_systems : Bool := false
  use_noise : Bool := false
  noise_mean : Q := 0
  noise_std : Q := 1
  chargeEmbedding : Bool := true
  selectFet : Option Nat := none

/-- One randomly drawn set of interaction-block weights (the entries
PyTorch draws at construction, abstracted as index functions). -/
structure InterW where
  f1W : Nat → Nat → Q
  f1B : Nat → Q
  f2W : Nat → Nat → Q
  f2B : Nat → Q
  inW : Nat → Nat → Q
  inB : Nat → Q
  outW : Nat → Nat → Q
  outB : Nat → Q
  dW : Nat → Nat → Q
  dB : Nat → Q

/-- The randomly initialized parameters and the numeric functions a
`SchNet` construction consumes: the weight entries PyTorch draws, the
entries of the `torch.rand([1,600,3])` tensor bound to `self.newpos`, and
the non-rational numeric functions (Gaussian basis expansion of section
4.2, square root, `shifted_softplus`), kept parametric. -/
structure WInit where
  denseW : Nat → Nat → Q
  denseB : Nat → Q
  embedW : Nat → Nat → Q
  chargeW : Nat → Q
  interW : Nat → InterW
  smear : Q → List Q
  sqrtQ : Q → Q
  ssp : Q → Q
  newposV : Nat → Nat → Q

/-- Build a concrete vector of length `n` from an entry function. -/
def mkVec (n : Nat) (f : Nat → Q) : T1 := (List.range n).map f

/-- Build a concrete `r × c` matrix from an entry function. -/
def mkMat (r c : Nat) (f : Nat → Nat → Q) : T2 := (List.range r).map fun i => mkVec c (f i)

/-- Build a `Dense` layer with `i` input and `o` output features. -/
def mkDense (i o : Nat) (fW : Nat → Nat → Q) (fB : Nat → Q) : DenseL :=
  ⟨i, mkMat o i fW, mkVec o fB⟩

/-- `SchNetInteraction.__init__` (source lines 30-58): the filter network
`Dense(n_spatial_basis, n_filters)` then `Dense(n_filters, n_filters)`,
the CFConv over `n_atom_basis`-wide features with `nf` filters, and the
output `Dense(n_atom_basis, n_atom_basis)`. -/
def mkInteraction (cfg : SchNetConfig) (nf : Nat) (iw : InterW) : Inter where
  filt1 := mkDense cfg.n_gaussians nf iw.f1W iw.f1B
  filt2 := mkDense nf nf iw.f2W iw.f2B
  in2f := mkDense cfg.n_atom_basis nf iw.inW iw.inB
  f2out := mkDense nf cfg.n_atom_basis iw.outW iw.outB
  dense := mkDense cfg.n_atom_basis cfg.n_atom_basis iw.dW iw.dB
  cutoff := cfg.cutoff
  normalize_filter := cfg.normalize_filter

/-- The state a constructed `SchNet` module owns (its stored attributes,
source lines 144-233). -/
structure SchNet where
  chargeEmbedding : Bool
  n_atom_basis : Nat
  selectFet : Option Nat
  embedding : Option T2
  dense : DenseL
  sqrtQ : Q → Q
  smear : Q → List Q
  ssp : Q → Q
  interactions : List Inter
  use_noise : Bool
  noise_mean : Q
  noise_std : Q
  return_intermediate : Bool
  charged_systems : Bool
  charge : Option T1
  newpos : T3

/-- `self.dense` as built by the four-way branch of source lines 152-164:
input width 8 when `selectFet is None`, else 1; output width
`int(n_atom_basis / 2)` when `chargeEmbedding`, else `n_atom_basis`
(integer division truncates, as `int(... / 2)` does). -/
def denseOf (cfg : SchNetConfig) (w : WInit) : DenseL :=
  match cfg.chargeEmbedding, cfg.selectFet with
  | true, none => mkDense 8 (cfg.n_atom_basis / 2) w.denseW w.denseB
  | false, none => mkDense 8 cfg.n_atom_basis w.denseW w.denseB
  | true, some _ => mkDense 1 (cfg.n_atom_basis / 2) w.denseW w.denseB
  | false, some _ => mkDense 1 cfg.n_atom_basis w.denseW w.denseB

/-- `self.embedding`, created exactly in the `chargeEmbedding` branches of
source lines 152-164: `max_z` rows of width `int(n_atom_basis / 2)`. -/
def embeddingOf (cfg : SchNetConfig) (w : WInit) : Option T2 :=
  if cfg.chargeEmbedding then some (mkMat cfg.max_z (cfg.n_atom_basis / 2) w.embedW)
  else none

/-- `self.interactions` (source lines 178-222): a per-block list of filter
widths, a single shared block repeated (`coupled_interactions`), or
independent blocks; indexing a too-short width list fails (`IndexError`). -/
def intersOf (cfg : SchNetConfig) (w : WInit) : Option (List Inter) :=
  match cfg.n_filters with
  | .list l =>
    if cfg.n_interactions ≤ l.length then
      some ((List.range cfg.n_interactions).map fun k => mkInteraction cfg (l.getD k 0) (w.interW k))
    else none
  | .scalar nf =>
    if cfg.coupled_interactions then
      some (List.replicate cfg.n_interactions (mkInteraction cfg nf (w.interW 0)))
    else
      some ((List.range cfg.n_interactions).map fun k => mkInteraction cfg nf (w.interW k))

/-- `SchNet.__init__` (source lines 123-233).  The charge parameter exists
only when `charged_systems`; `self.newpos` is the `torch.rand([1,600,3])`
tensor of line 233, its random entries supplied by `w.newposV`. -/
def schnetInit (cfg : SchNetConfig) (w : WInit) : Option SchNet :=
  (intersOf cfg w).bind fun inters =>
    some {
      chargeEmbedding := cfg.chargeEmbedding
      n_atom_basis := cfg.n_atom_basis
      selectFet := cfg.selectFet
      embedding := embeddingOf cfg w
      dense := denseOf cfg w
      sqrtQ := w.sqrtQ
      smear := w.smear
      ssp := w.ssp
      interactions := inters
      use_noise := cfg.use_noise
      noise_mean := cfg.noise_mean
      noise_std := cfg.noise_std
      return_intermediate := cfg.return_intermediate
      charged_systems := cfg.charged_systems
      charge := if cfg.charged_systems then some (mkVec cfg.n_atom_basis w.chargeW) else none
      newpos := [mkMat 600 3 w.newposV]
    }

/-- The input dictionary consumed by `SchNet.forward` (source lines
248-255): atomic numbers, positions, optional periodic data, neighbor
indices and masks, the auxiliary property tensor, and the optional
per-structure charge entry. -/
structure Inputs where
  Z : N2
  R : T3
  cell : Option T3
  cell_offset : Option T4
  neighbors : N3
  neighbor_mask : T3
  atom_mask : T2
  props : T3
  charge : Option T1

/-- The property tensor actually used (source lines 258-272): the full
`inputs['props']` when `selectFet is None`, else the single selected
column; the debug loop of lines 260-270 reads `props[i][k][0]` of every
row, so an empty selected slice fails (`IndexError`). -/
def propsOf (m : SchNet) (i : Inputs) : Option T3 :=
  match m.selectFet with
  | none => some i.props
  | some s =>
    let p := sliceLast i.props s (s + 1)
    (omap (fun row => omap (fun v => v.get? 0) row) p).bind fun _ => some p

/-- The initial feature tensor (source lines 282-292): in combined mode
the affine-transformed properties concatenated with the embedding of the
atomic numbers, else the affine-transformed properties alone. -/
def initX (m : SchNet) (i : Inputs) : Option T3 := do
  let props ← propsOf m i
  if m.chargeEmbedding then do
    let p ← denseApply none m.dense props
    let tbl ← m.embedding
    let e ← embedApply tbl i.Z
    cat2 p e
  else denseApply none m.dense props

/-- The charge feature step (source lines 295-299).  The source guard is
`if False and self.charged_systems and Properties.charge in inputs.keys()`,
so the body — charge divided by the per-structure atom count, times the
learned charge vector, added to `x` — is unreachable. -/
def chargeStep (m : SchNet) (i : Inputs) (x : T3) : Option T3 :=
  if false && m.charged_systems && i.charge.isSome then do
    let c ← i.charge
    let cp ← m.charge
    let n_atoms := i.atom_mask.map List.sum
    let frac ← (zipSame c n_atoms).map (List.map fun p => p.1 / p.2)
    let bf := frac.map fun q => cp.map fun t => q * t
    (zipSame x bf).bind fun rows => omap (fun p => omap (fun xv => addVecO xv p.2) p.1) rows
  else some x

/-- Initial features followed by the (dead) charge step: the feature
tensor entering the interaction loop. -/
def initCharged (m : SchNet) (i : Inputs) : Option T3 :=
  (initX m i).bind fun x => chargeStep m i x

/-- The distance tensor `r_ij` computed by `SchNet.forward` (source lines
308-310), fed with the `positions` bound at line 249 — which is the
constructor's `self.newpos`, not `inputs[Properties.R]`. -/
def rijOf (m : SchNet) (i : Inputs) : Option T3 :=
  atomDistances m.sqrtQ m.newpos i.neighbors i.cell i.cell_offset i.neighbor_mask

/-- `f_ij = self.distance_expansion(r_ij)` (source line 312). -/
def fijOf (m : SchNet) (rij : T3) : T4 :=
  rij.map (List.map (List.map m.smear))

/-- The `noise` tensor of source line 303, `rand(shape) * noise_mean`:
entry values are random and the tensor is never used, so only its shape
is meaningful. -/
def noiseOf (pos : T3) (mean : Q) : T3 :=
  pos.map (List.map (List.map fun _ => mean))

/-- `SchNet.forward` (source lines 235-325). -/
def forward (m : SchNet) (i : Inputs) : Option (T3 × Option (List T3)) := do
  -- lines 248-254 read the input dictionary; line 249 binds positions to
  -- the constructor's `self.newpos` (with `inputs[Properties.R]` commented out)
  let positions := m.newpos
  -- line 255: ligand_indicator = inputs['props'][:, :, 7:8] (only printed)
  let _li := sliceLast i.props 7 8
  -- lines 258-292
  let x0 ← initX m i
  -- lines 295-299
  let x1 ← chargeStep m i x0
  -- lines 301-305: `noise` is computed but never used, and the guarded
  -- statement `positions  # + noise` is an effect-free expression
  let _noise := noiseOf positions m.noise_mean
  let _guard := m.use_noise
  -- lines 307-310
  let rij ← rijOf m i
  -- line 312
  let fij := fijOf m rij
  -- lines 313-321
  let p ← interactionLoop m.ssp m.interactions x1 rij i.neighbors i.neighbor_mask fij
  -- lines 323-325
  some (p.1, if m.return_intermediate then some (x1 :: p.2) else none)

/-- Shape predicate for rank-3 tensors: `B` structures, `A` atom rows
each, `F` features per atom. -/
def HasShape3 (t : T3) (B A F : Nat) : Prop :=
  t.length = B ∧ ∀ r ∈ t, r.length = A ∧ ∀ v ∈ r, v.length = F

/-- A fallback `SchNet` value (only used to destructure `Option`s in
concrete witnesses). -/
def schnetDefault : SchNet where
  chargeEmbedding := false
  n_atom_basis := 0
  selectFet := none
  embedding := none
  dense := ⟨0, [], []⟩
  sqrtQ := id
  smear := fun _ => []
  ssp := id
  interactions := []
  use_noise := false
  noise_mean := 0
  noise_std := 0
  return_intermediate := false
  charged_systems := false
  charge := none
  newpos := []

instance : Inhabited SchNet := ⟨schnetDefault⟩

/-- An all-zero interaction-weight draw. -/
def iw0 : InterW where
  f1W := fun _ _ => 0
  f1B := fun _ => 0
  f2W := fun _ _ => 0
  f2B := fun _ => 0
  inW := fun _ _ => 0
  inB := fun _ => 0
  outW := fun _ _ => 0
  outB := fun _ => 0
  dW := fun _ _ => 0
  dB := fun _ => 0

/-- A concrete weight supply: zero weights, a one-element basis expansion,
and identity numeric functions. -/
def w0 : WInit where
  denseW := fun _ _ => 0
  denseB := fun _ => 0
  embedW := fun _ _ => 0
  chargeW := fun _ => 0
  interW := fun _ => iw0
  smear := fun _ => [0]
  sqrtQ := id
  ssp := id
  newposV := fun _ _ => 0

/-- A small concrete configuration: combined initialization, even feature
width 4, one interaction block with 2 filters, 1 Gaussian. -/
def cfg0 : SchNetConfig where
  n_atom_basis := 4
  n_filters := .scalar 2
  n_interactions := 1
  cutoff := 5
  n_gaussians := 1
  max_z := 2
  chargeEmbedding := true
  selectFet := none

/-- The model constructed from `cfg0` and `w0`. -/
def M0 : SchNet := (schnetInit cfg0 w0).getD schnetDefault

/-- A concrete valid one-structure, one-atom batch with the 8 auxiliary
property columns the hard-coded `Dense(8, ...)` expects. -/
def I0 : Inputs where
  Z := [[1]]
  R := [[[1, 1, 1]]]
  cell := none
  cell_offset := none
  neighbors := [[[0]]]
  neighbor_mask := [[[1]]]
  atom_mask := [[1]]
  props := [[[0, 0, 0, 0, 0, 0, 0, 0]]]
  charge := none

/-- The output of `forward M0 I0` (a successful run). -/
def O0 : T3 × Option (List T3) := (forward M0 I0).getD ([], none)

/-- `cfg0` with the odd feature width 3 in combined initialization mode. -/
def cfg3 : SchNetConfig := { cfg0 with n_atom_basis := 3 }

/-- The model constructed from `cfg3` (odd feature width) and `w0`. -/
def M3 : SchNet := (schnetInit cfg3 w0).getD schnetDefault

/-- `M0` with intermediate representations requested. -/
def M5 : SchNet := { M0 with return_intermediate := true }

/-- The output of `forward M5 I0` (with intermediates). -/
def O5 : T3 × Option (List T3) := (forward M5 I0).getD ([], none)

/-- The intermediate list returned by `forward M5 I0`. -/
def XS5 : List T3 := O5.2.getD []

/-- The feature tensor entering the interaction loop for `M5`, `I0`. -/
def X1 : T3 := (initCharged M5 I0).getD []

/-- A two-atom batch whose positions `R` (atoms 2 apart) differ from the
all-zero entries `M0.newpos` carries. -/
def I1 : Inputs where
  Z := [[1, 1]]
  R := [[[0, 0, 0], [2, 0, 0]]]
  cell := none
  cell_offset := none
  neighbors := [[[1], [0]]]
  neighbor_mask := [[[1], [1]]]
  atom_mask := [[1, 1]]
  props := [[[0, 0, 0, 0, 0, 0, 0, 0], [0, 0, 0, 0, 0, 0, 0, 0]]]
  charge := none

/-- One step of the interaction loop: `a + interaction(a, ...)`. -/
def stepInter (ssp : Q → Q) (w : Inter) (rij : T3) (nbrs : N3) (mask : T3)
    (fij : T4) (a : T3) : Option T3 :=
  (interactionForward ssp w a rij nbrs mask fij).bind fun v => addT a v

theorem mkVec_length (n : Nat) (f : Nat → Q) : (mkVec n f).length = n := by
  simp [mkVec]

theorem mkMat_length (r c : Nat) (f : Nat → Nat → Q) : (mkMat r c f).length = r := by
  simp [mkMat]

theorem mkMat_mem_length {r c : Nat} {f : Nat → Nat → Q} {row : T1} (h : row ∈ mkMat r c f) :
    row.length = c := by
  simp only [mkMat, List.mem_map] at h
  obtain ⟨j, _, hrow⟩ := h
  simp [← hrow, mkVec_length]

theorem denseVec_inF {act : Option (Q → Q)} {d : DenseL} {v y : T1}
    (h : denseVec act d v = some y) : v.length = d.inF := by
  unfold denseVec at h
  split at h
  · assumption
  · exact absurd h (by simp)

theorem denseVec_length {act : Option (Q → Q)} {d : DenseL} {v y : T1}
    (h : denseVec act d v = some y) : y.length = min d.weight.length d.bias.length := by
  unfold denseVec at h
  split at h
  · injection h with h
    subst h
    cases act <;> simp [List.length_zip]
  · exact absurd h (by simp)

theorem denseApply_shape {act : Option (Q → Q)} {d : DenseL} {t u : T3} {B A : Nat}
    (h : denseApply act d t = some u) (hB : t.length = B) (hA : ∀ r ∈ t, r.length = A) :
    HasShape3 u B A (min d.weight.length d.bias.length) := by
  refine ⟨by rw [omap_length _ h, hB], ?_⟩
  intro r hr
  obtain ⟨r0, hr0, hro⟩ := omap_mem _ h hr
  refine ⟨by rw [omap_length _ hro]; exact hA r0 hr0, ?_⟩
  intro v hv
  obtain ⟨v0, _, hdv⟩ := omap_mem _ hro hv
  exact denseVec_length hdv

theorem omap_forall {α : Type u} {β : Type v} (f : α → Option β) :
    ∀ {xs : List α} {ys : List β}, omap f xs = some ys →
      ∀ a ∈ xs, ∃ b, f a = some b := by
  intro xs
  induction xs with
  | nil => intro ys _ a ha; simp at ha
  | cons a0 as ih =>
    intro ys h a ha
    simp only [omap, Option.bind_eq_some, Option.some.injEq] at h
    obtain ⟨b0, hb0, bs, hbs, _⟩ := h
    rcases List.mem_cons.mp ha with h1 | h2
    · exact ⟨b0, h1 ▸ hb0⟩
    · exact ih hbs a h2

theorem denseApply_inF {act : Option (Q → Q)} {d : DenseL} {t u : T3}
    (h : denseApply act d t = some u) : ∀ r ∈ t, ∀ v ∈ r, v.length = d.inF := by
  intro r hr v hv
  obtain ⟨ys, hys⟩ := omap_forall _ h r hr
  obtain ⟨y, hy⟩ := omap_forall _ hys v hv
  exact denseVec_inF hy

theorem embedApply_widths {tbl : T2} {z : N2} {e : T3} {W : Nat}
    (h : embedApply tbl z = some e) (hW : ∀ row ∈ tbl, row.length = W) :
    ∀ r ∈ e, ∀ v ∈ r, v.length = W := by
  intro r hr v hv
  obtain ⟨r0, _, hro⟩ := omap_mem _ h hr
  obtain ⟨n, _, hn⟩ := omap_mem _ hro hv
  exact hW v (List.get?_mem hn)

theorem cat2_shape {p e u : T3} {B A c1 c2 : Nat}
    (h : cat2 p e = some u) (hp : HasShape3 p B A c1)
    (he : ∀ r ∈ e, ∀ v ∈ r, v.length = c2) :
    HasShape3 u B A (c1 + c2) := by
  rw [cat2, Option.bind_eq_some] at h
  obtain ⟨bs, hbs, homap⟩ := h
  refine ⟨by rw [omap_length _ homap, (zipSame_length hbs).1, hp.1], ?_⟩
  intro r hr
  obtain ⟨pb, hpb, hg⟩ := omap_mem _ homap hr
  rw [Option.map_eq_some'] at hg
  obtain ⟨rows, hrows, hreq⟩ := hg
  obtain ⟨hpb1, hpb2⟩ := zipSame_mem hbs hpb
  constructor
  · rw [← hreq, List.length_map, (zipSame_length hrows).1]
    exact ((hp.2 pb.1 hpb1).1)
  · intro v hv
    rw [← hreq, List.mem_map] at hv
    obtain ⟨q, hq, hveq⟩ := hv
    obtain ⟨hq1, hq2⟩ := zipSame_mem hrows hq
    rw [← hveq, List.length_append]
    rw [(hp.2 pb.1 hpb1).2 q.1 hq1, he pb.2 hpb2 q.2 hq2]

theorem addVecO_length {a b y : T1} (h : addVecO a b = some y) : y.length = a.length := by
  rw [addVecO, Option.map_eq_some'] at h
  obtain ⟨l, hl, hy⟩ := h
  rw [← hy, List.length_map, (zipSame_length hl).1]

theorem addT_shape {x v u : T3} {B A F : Nat}
    (h : addT x v = some u) (hx : HasShape3 x B A F) : HasShape3 u B A F := by
  rw [addT, Option.bind_eq_some] at h
  obtain ⟨bs, hbs, homap⟩ := h
  refine ⟨by rw [omap_length _ homap, (zipSame_length hbs).1, hx.1], ?_⟩
  intro r hr
  obtain ⟨pb, hpb, hg⟩ := omap_mem _ homap hr
  rw [Option.bind_eq_some] at hg
  obtain ⟨rows, hrows, homap2⟩ := hg
  obtain ⟨hpb1, _⟩ := zipSame_mem hbs hpb
  constructor
  · rw [omap_length _ homap2, (zipSame_length hrows).1]
    exact (hx.2 pb.1 hpb1).1
  · intro w hw
    obtain ⟨q, hq, haddv⟩ := omap_mem _ homap2 hw
    obtain ⟨hq1, _⟩ := zipSame_mem hrows hq
    rw [addVecO_length haddv]
    exact (hx.2 pb.1 hpb1).2 q.1 hq1

theorem obind_eq_some {α β : Type u} {o : Option α} {f : α → Option β} {b : β} :
    (o >>= f) = some b ↔ ∃ a, o = some a ∧ f a = some b := Option.bind_eq_some

theorem interactionLoop_shape {ssp : Q → Q} {ws : List Inter} {x rij : T3} {nbrs : N3}
    {mask : T3} {fij : T4} {xf : T3} {steps : List T3} {B A F : Nat}
    (h : interactionLoop ssp ws x rij nbrs mask fij = some (xf, steps))
    (hx : HasShape3 x B A F) : HasShape3 xf B A F := by
  induction ws generalizing x xf steps with
  | nil =>
    rw [interactionLoop] at h
    injection h with h
    rw [← (Prod.mk.injEq _ _ _ _).mp h |>.1]
    exact hx
  | cons w rest ih =>
    rw [interactionLoop] at h
    simp only [obind_eq_some, Option.some.injEq] at h
    obtain ⟨v, hv, x2, hx2, pr, hpr, hout⟩ := h
    have h2 : interactionLoop ssp rest x2 rij nbrs mask fij = some (pr.1, pr.2) := by
      rw [hpr]
    have hxf : xf = pr.1 := by
      have h3 := congrArg Prod.fst hout
      simpa using h3.symm
    subst hxf
    exact ih h2 (addT_shape hx2 hx)

theorem chargeStep_eq (m : SchNet) (i : Inputs) (x : T3) : chargeStep m i x = some x := rfl

theorem schnetInit_fields {cfg : SchNetConfig} {w : WInit} {m : SchNet}
    (h : schnetInit cfg w = some m) :
    m.dense = denseOf cfg w ∧ m.embedding = embeddingOf cfg w ∧
      m.selectFet = cfg.selectFet ∧ m.chargeEmbedding = cfg.chargeEmbedding ∧
      m.n_atom_basis = cfg.n_atom_basis ∧ m.return_intermediate = cfg.return_intermediate := by
  rw [schnetInit, Option.bind_eq_some] at h
  obtain ⟨inters, _, h2⟩ := h
  injection h2 with h2
  subst h2
  exact ⟨rfl, rfl, rfl, rfl, rfl, rfl⟩

theorem forward_parts {m : SchNet} {i : Inputs} {out : T3 × Option (List T3)}
    (h : forward m i = some out) :
    ∃ x0 x1 rij p, initX m i = some x0 ∧ chargeStep m i x0 = some x1 ∧ rijOf m i = some rij ∧
      interactionLoop m.ssp m.interactions x1 rij i.neighbors i.neighbor_mask (fijOf m rij) =
        some p ∧
      out = (p.1, if m.return_intermediate then some (x1 :: p.2) else none) := by
  simp only [forward, obind_eq_some, Option.some.injEq] at h
  obtain ⟨x0, hx0, x1, hx1, rij, hrij, p, hp, hout⟩ := h
  exact ⟨x0, x1, rij, p, hx0, hx1, hrij, hp, hout.symm⟩

theorem obind_some {α β : Type u} (a : α) (f : α → Option β) : (some a >>= f) = f a := rfl

theorem obindb_some {α β : Type u} (a : α) (f : α → Option β) :
    Option.bind (some a) f = f a := rfl

/-- C8: for any two input batches that are identical except in the
positions field `R`, `SchNet.forward` on the same model produces
identical outputs: the forward pass never reads `inputs[Properties.R]`
(line 249 binds `positions` to the constructor's `self.newpos`). -/
theorem C8_positions_ignored : ∀ (m : SchNet) (i : Inputs) (r : T3),
    forward m { i with R := r } = forward m i :=
  fun _ _ _ => rfl

/-- C9: the noise configuration is a no-op — `forward` output is identical
for every value of `use_noise`, `noise_mean` and `noise_std`, since the
generated noise tensor is never added to the positions (the guarded
statement at line 305 is an effect-free expression) and `noise_std` is
never read in `forward`. -/
theorem C9_noise_noop : ∀ (m : SchNet) (i : Inputs) (u : Bool) (a s : Q),
    forward { m with use_noise := u, noise_mean := a, noise_std := s } i = forward m i :=
  fun _ _ _ _ _ => rfl

/-- C7: the feature tensor is updated additively — the interaction loop
on `w :: ws` first computes `v = interaction(x, ...)`, which itself is the
output dense layer applied to the continuous-filter convolution, then
continues from `x + v`. -/
theorem C7_additive_update : ∀ (ssp : Q → Q) (w : Inter) (ws : List Inter) (x rij : T3)
    (nbrs : N3) (mask : T3) (fij : T4),
    (interactionForward ssp w x rij nbrs mask fij =
      (cfconvApply ssp w x rij nbrs mask fij).bind fun c => denseApply none w.dense c) ∧
    (interactionLoop ssp (w :: ws) x rij nbrs mask fij =
      (interactionForward ssp w x rij nbrs mask fij).bind fun v =>
        (addT x v).bind fun x2 =>
          (interactionLoop ssp ws x2 rij nbrs mask fij).bind fun p =>
            some (p.1, x2 :: p.2)) :=
  fun _ _ _ _ _ _ _ _ => ⟨rfl, rfl⟩

set_option maxRecDepth 8000 in
/-- C2 (code bug): with `charged_systems = True` and a charge entry
present in the inputs, the output equals that of the model with the
feature disabled — the guard at line 295 begins with the literal `False`,
so the learnable charge vector is never added. -/
theorem C2_charge_never_added :
    forward { M0 with charged_systems := true, charge := some [1, 1, 1, 1] }
        { I0 with charge := some [1] } = forward M0 I0 := rfl

set_option maxRecDepth 8000 in
/-- C1 (code bug): the distance tensor `r_ij` is computed from the
constructor's `self.newpos`, and at the concrete batch `I1` (whose
positions put the two atoms 2 apart while `newpos` is all zeros) it
differs from the distances the batch's own positions would give. -/
theorem C1_distances_from_newpos :
    rijOf M0 I1 =
      atomDistances M0.sqrtQ M0.newpos I1.neighbors I1.cell I1.cell_offset I1.neighbor_mask ∧
    rijOf M0 I1 ≠
      atomDistances M0.sqrtQ I1.R I1.neighbors I1.cell I1.cell_offset I1.neighbor_mask := by
  constructor
  · rfl
  · have h1 : rijOf M0 I1 = some [[[0], [0]]] := rfl
    have h2 : atomDistances M0.sqrtQ I1.R I1.neighbors I1.cell I1.cell_offset
        I1.neighbor_mask = some [[[4], [4]]] := rfl
    rw [h1, h2]
    simp

theorem range_map_const {α : Type u} (n : Nat) (f : Nat → α) (hf : ∀ k, f k = f 0) :
    (List.range n).map f = List.replicate n (f 0) := by
  rw [List.map_congr_left (fun k _ => hf k), List.map_const', List.length_range]

/-- C6: with all interaction-weight draws identical, the model built with
independent blocks and the model built with `coupled_interactions = True`
(one block instance reused) give identical `forward` outputs on every
input. -/
theorem C6_coupled_equiv (cfg : SchNetConfig) (w : WInit) (i : Inputs)
    (hN : 1 ≤ cfg.n_interactions)
    (hw : ∀ k, w.interW k = w.interW 0) :
    (schnetInit { cfg with coupled_interactions := false } w).map (fun m => forward m i) =
    (schnetInit { cfg with coupled_interactions := true } w).map (fun m => forward m i) := by
  have hI : intersOf { cfg with coupled_interactions := false } w =
      intersOf { cfg with coupled_interactions := true } w := by
    unfold intersOf
    dsimp only
    cases hnf : cfg.n_filters with
    | list l => rfl
    | scalar nf =>
      dsimp only
      rw [if_neg (by simp), if_pos rfl]
      rw [range_map_const _ _ (fun k => by rw [hw k])]
      rfl
  unfold schnetInit
  rw [hI]
  rfl

/-- C4 (amended): constructing with combined initialization mode succeeds
for every feature width — no configuration error is raised; the embedding
rows and the property-transform output both get the truncated width
`n_atom_basis / 2`. -/
theorem C4_odd_width_constructs (cfg : SchNetConfig) (w : WInit) (k : Nat)
    (hce : cfg.chargeEmbedding = true) (hnf : cfg.n_filters = .scalar k) :
    ∃ m, schnetInit cfg w = some m ∧
      (∀ row ∈ m.embedding.getD [], row.length = cfg.n_atom_basis / 2) ∧
      m.dense.weight.length = cfg.n_atom_basis / 2 := by
  have hi : ∃ inters, intersOf cfg w = some inters := by
    unfold intersOf
    rw [hnf]
    cases cfg.coupled_interactions <;> simp
  obtain ⟨inters, hi⟩ := hi
  have hsome : (schnetInit cfg w).isSome := by rw [schnetInit, hi]; rfl
  obtain ⟨m, hm⟩ := Option.isSome_iff_exists.mp hsome
  obtain ⟨hd, he, _, _, _, _⟩ := schnetInit_fields hm
  refine ⟨m, hm, ?_, ?_⟩
  · rw [he]
    unfold embeddingOf
    rw [if_pos hce]
    intro row hrow
    simp only [Option.getD_some] at hrow
    exact mkMat_mem_length hrow
  · cases hs : cfg.selectFet <;>
      simp [hd, denseOf, hce, hs, mkDense, mkMat_length]

set_option maxRecDepth 8000 in
/-- C4 (counterexample): constructing with combined mode and the odd
feature width 3 does not fail — it yields a model whose embedding rows
have the truncated width `int(3 / 2) = 1`. -/
theorem C4_cex_construction_succeeds :
    schnetInit cfg3 w0 = some M3 ∧ (M3.embedding.getD []).map List.length = [1, 1] :=
  ⟨rfl, rfl⟩

/-- C4 (witness): the amended theorem applied at the concrete odd-width
configuration `cfg3`. -/
theorem C4_wit_construction : (schnetInit cfg3 w0).isSome = true := by
  obtain ⟨m, hm, _, _⟩ := C4_odd_width_constructs cfg3 w0 2 rfl rfl
  rw [hm]
  rfl

/-- C6 (witness): the weight-sharing equivalence applied at the concrete
configuration `cfg0` with the constant weight draw `w0`. -/
theorem C6_wit_coupled :
    (schnetInit { cfg0 with coupled_interactions := false } w0).map (fun m => forward m I0) =
    (schnetInit { cfg0 with coupled_interactions := true } w0).map (fun m => forward m I0) :=
  C6_coupled_equiv cfg0 w0 I0 (by decide) (fun _ => rfl)

/-- C10: with `selectFet = None`, a successful forward pass forces every
row of the auxiliary property tensor to have exactly 8 columns — the
hard-coded input width of `Dense(8, ...)`. -/
theorem C10_props_width (cfg : SchNetConfig) (w : WInit) (m : SchNet) (i : Inputs)
    (out : T3 × Option (List T3))
    (hsel : cfg.selectFet = none)
    (hinit : schnetInit cfg w = some m)
    (hf : forward m i = some out) :
    ∀ r ∈ i.props, ∀ v ∈ r, v.length = 8 := by
  obtain ⟨x0, x1, rij, p, hx0, _, _, _, _⟩ := forward_parts hf
  obtain ⟨hd, he, hsf, hcem, _, _⟩ := schnetInit_fields hinit
  have hsel2 : m.selectFet = none := by rw [hsf, hsel]
  have hprops : propsOf m i = some i.props := by simp [propsOf, hsel2]
  have hinF : m.dense.inF = 8 := by
    rw [hd]
    unfold denseOf
    rw [hsel]
    cases cfg.chargeEmbedding <;> rfl
  have hda : ∃ u, denseApply none m.dense i.props = some u := by
    simp only [initX, hprops, obind_some] at hx0
    rw [hcem] at hx0
    cases hce : cfg.chargeEmbedding with
    | true =>
      rw [hce, if_pos rfl] at hx0
      simp only [obind_eq_some] at hx0
      obtain ⟨pp, hpp, _⟩ := hx0
      exact ⟨pp, hpp⟩
    | false =>
      rw [hce, if_neg Bool.false_ne_true] at hx0
      exact ⟨x0, hx0⟩
  obtain ⟨u, hu⟩ := hda
  intro r hr v hv
  rw [← hinF]
  exact denseApply_inF hu r hr v hv

set_option maxRecDepth 8000 in
/-- C10 (witness): the width theorem applied to the concrete successful
run `forward M0 I0 = some O0`. -/
theorem C10_wit_width : ([0, 0, 0, 0, 0, 0, 0, 0] : T1).length = 8 :=
  C10_props_width cfg0 w0 M0 I0 O0 rfl rfl rfl [[0, 0, 0, 0, 0, 0, 0, 0]] (by decide)
    [0, 0, 0, 0, 0, 0, 0, 0] (by decide)

theorem sliceLast_shape {t : T3} {B A : Nat} {lo hi : Nat}
    (hB : t.length = B) (hA : ∀ r ∈ t, r.length = A) :
    (sliceLast t lo hi).length = B ∧ ∀ r ∈ sliceLast t lo hi, r.length = A := by
  constructor
  · rw [sliceLast, List.length_map, hB]
  · intro r hr
    rw [sliceLast, List.mem_map] at hr
    obtain ⟨r0, hr0, hreq⟩ := hr
    rw [← hreq, List.length_map]
    exact hA r0 hr0

theorem propsOf_shape {m : SchNet} {i : Inputs} {ps : T3} {B A : Nat}
    (h : propsOf m i = some ps)
    (hB : i.props.length = B) (hA : ∀ r ∈ i.props, r.length = A) :
    ps.length = B ∧ ∀ r ∈ ps, r.length = A := by
  cases hs : m.selectFet with
  | none =>
    rw [propsOf, hs] at h
    injection h with h
    subst h
    exact ⟨hB, hA⟩
  | some sel =>
    rw [propsOf, hs] at h
    simp only [obind_eq_some] at h
    obtain ⟨chk, hchk, hps⟩ := Option.bind_eq_some.mp h
    injection hps with hps
    subst hps
    exact sliceLast_shape hB hA

/-- C3 (amended): with an even feature width in combined mode (any width
in properties-only mode), a successful forward pass on a batch whose
property tensor has dimensions (B, A, P) returns a feature tensor of
shape (B, A, n_atom_basis) exactly. -/
theorem C3_feature_shape (cfg : SchNetConfig) (w : WInit) (m : SchNet) (i : Inputs)
    (out : T3 × Option (List T3)) (B A : Nat)
    (heven : cfg.chargeEmbedding = true → cfg.n_atom_basis % 2 = 0)
    (hinit : schnetInit cfg w = some m)
    (hB : i.props.length = B)
    (hA : ∀ r ∈ i.props, r.length = A)
    (hf : forward m i = some out) :
    HasShape3 out.1 B A cfg.n_atom_basis := by
  obtain ⟨x0, x1, rij, p, hx0, hcs, hrij, hloop, hout⟩ := forward_parts hf
  obtain ⟨hd, he, hsf, hcem, hnab, _⟩ := schnetInit_fields hinit
  simp only [initX, obind_eq_some] at hx0
  obtain ⟨ps, hps, hx0⟩ := hx0
  obtain ⟨hpsB, hpsA⟩ := propsOf_shape hps hB hA
  rw [hcem] at hx0
  have hwidth : min m.dense.weight.length m.dense.bias.length =
      (if cfg.chargeEmbedding then cfg.n_atom_basis / 2 else cfg.n_atom_basis) := by
    rw [hd]
    unfold denseOf
    cases hce : cfg.chargeEmbedding <;> cases hs : cfg.selectFet <;>
      simp [mkDense, mkMat_length, mkVec_length]
  have hx0shape : HasShape3 x0 B A cfg.n_atom_basis := by
    cases hce : cfg.chargeEmbedding with
    | false =>
      rw [hce, if_neg Bool.false_ne_true] at hx0
      have hmin : min m.dense.weight.length m.dense.bias.length = cfg.n_atom_basis := by
        rw [hwidth, hce]
        simp
      exact hmin ▸ denseApply_shape hx0 hpsB hpsA
    | true =>
      rw [hce, if_pos rfl] at hx0
      simp only [obind_eq_some] at hx0
      obtain ⟨pp, hpp, tbl, htbl, ee, hee, hcat⟩ := hx0
      have hpshape : HasShape3 pp B A (cfg.n_atom_basis / 2) := by
        have hmin : min m.dense.weight.length m.dense.bias.length = cfg.n_atom_basis / 2 := by
          rw [hwidth, hce]
          simp
        exact hmin ▸ denseApply_shape hpp hpsB hpsA
      have htblval : tbl = mkMat cfg.max_z (cfg.n_atom_basis / 2) w.embedW := by
        rw [he] at htbl
        unfold embeddingOf at htbl
        rw [if_pos hce] at htbl
        injection htbl with h
        exact h.symm
      have hewidths : ∀ r ∈ ee, ∀ v ∈ r, v.length = cfg.n_atom_basis / 2 := by
        refine embedApply_widths hee ?_
        rw [htblval]
        intro row hrow
        exact mkMat_mem_length hrow
      have hsum : cfg.n_atom_basis / 2 + cfg.n_atom_basis / 2 = cfg.n_atom_basis := by
        have h2 := heven hce
        omega
      exact hsum ▸ cat2_shape hcat hpshape hewidths
  have hx1eq : x1 = x0 := by
    have h2 := (chargeStep_eq m i x0).symm.trans hcs
    injection h2 with h2
    exact h2.symm
  have hloop2 : interactionLoop m.ssp m.interactions x1 rij i.neighbors i.neighbor_mask
      (fijOf m rij) = some (p.1, p.2) := by rw [hloop]
  have hfin : HasShape3 p.1 B A cfg.n_atom_basis :=
    interactionLoop_shape hloop2 (hx1eq ▸ hx0shape)
  rw [hout]
  exact hfin

set_option maxRecDepth 8000 in
/-- C3 (counterexample): at the odd feature width 3 in combined mode, the
valid batch `I0` (shape B=1, A=1, P=8) makes `forward` fail outright —
the concatenated initial features have width 2, mismatching the
interaction block built for width 3 — so no (B, A, 3) tensor is
returned. -/
theorem C3_cex_odd_width : HasShape3 I0.props 1 1 8 ∧ forward M3 I0 = none :=
  ⟨by unfold HasShape3; decide, rfl⟩

set_option maxRecDepth 8000 in
/-- C3 (witness): the shape theorem applied to the concrete run
`forward M0 I0 = some O0` with B = A = 1 and F = 4. -/
theorem C3_wit_shape : HasShape3 O0.1 1 1 4 :=
  C3_feature_shape cfg0 w0 M0 I0 O0 1 1 (fun _ => rfl) rfl rfl (by decide) rfl

theorem interactionLoop_spec {ssp : Q → Q} {ws : List Inter} {x rij : T3} {nbrs : N3}
    {mask : T3} {fij : T4} {xf : T3} {steps : List T3}
    (h : interactionLoop ssp ws x rij nbrs mask fij = some (xf, steps)) :
    steps.length = ws.length ∧ (x :: steps).getLast? = some xf ∧
      ∀ j w a b, ws.get? j = some w → (x :: steps).get? j = some a →
        (x :: steps).get? (j + 1) = some b →
        stepInter ssp w rij nbrs mask fij a = some b := by
  induction ws generalizing x xf steps with
  | nil =>
    rw [interactionLoop] at h
    injection h with h
    have h1 : x = xf := congrArg Prod.fst h
    have h2 : ([] : List T3) = steps := congrArg Prod.snd h
    subst h1
    subst h2
    refine ⟨rfl, rfl, ?_⟩
    intro j w a b hj _ _
    simp at hj
  | cons w0 rest ih =>
    rw [interactionLoop] at h
    simp only [obind_eq_some, Option.some.injEq] at h
    obtain ⟨v, hv, x2, hx2, pr, hpr, hout⟩ := h
    have h2 : interactionLoop ssp rest x2 rij nbrs mask fij = some (pr.1, pr.2) := by rw [hpr]
    obtain ⟨ihlen, ihlast, ihstep⟩ := ih h2
    have hxf : xf = pr.1 := by
      have h3 := congrArg Prod.fst hout
      simpa using h3.symm
    have hsteps : steps = x2 :: pr.2 := by
      have h3 := congrArg Prod.snd hout
      simpa using h3.symm
    subst hxf
    subst hsteps
    refine ⟨by simpa using ihlen, ?_, ?_⟩
    · rw [List.getLast?_cons_cons]
      exact ihlast
    · intro j w a b hj ha hb
      cases j with
      | zero =>
        simp only [List.get?] at hj ha hb
        injection hj with hj
        injection ha with ha
        injection hb with hb
        subst hj
        subst ha
        subst hb
        rw [stepInter, hv, obindb_some]
        exact hx2
      | succ jj =>
        simp only [List.get?] at hj ha hb
        exact ihstep jj w a b hj ha hb

/-- C5: when intermediates are requested, `forward` returns an ordered
list of exactly N+1 feature tensors — the tensor entering the loop
followed by the tensor after each of the N interaction blocks, in
application order (consecutive entries related by one interaction
step). -/
theorem C5_intermediates (m : SchNet) (i : Inputs) (x1 xf : T3) (xs : List T3)
    (hret : m.return_intermediate = true)
    (hic : initCharged m i = some x1)
    (hf : forward m i = some (xf, some xs)) :
    xs.length = m.interactions.length + 1 ∧ xs.head? = some x1 ∧ xs.getLast? = some xf ∧
      ∀ rij, rijOf m i = some rij →
        ∀ j w a b, m.interactions.get? j = some w → xs.get? j = some a →
          xs.get? (j + 1) = some b →
          stepInter m.ssp w rij i.neighbors i.neighbor_mask (fijOf m rij) a = some b := by
  obtain ⟨x0, x1p, rijp, p, hx0, hcs, hrijp, hloop, hout⟩ := forward_parts hf
  have hic2 : initCharged m i = some x1p := by
    rw [initCharged, hx0, obindb_some]
    exact hcs
  have hx1 : x1 = x1p := by
    rw [hic2] at hic
    injection hic with h
    exact h.symm
  subst hx1
  rw [hret, if_pos rfl] at hout
  have hxf : xf = p.1 := by
    have h3 := congrArg Prod.fst hout
    simpa using h3
  have hxs : xs = x1 :: p.2 := by
    have h3 := congrArg Prod.snd hout
    simpa using h3
  subst hxf
  subst hxs
  have hloop2 : interactionLoop m.ssp m.interactions x1 rijp i.neighbors i.neighbor_mask
      (fijOf m rijp) = some (p.1, p.2) := by rw [hloop]
  obtain ⟨hlen, hlast, hstep⟩ := interactionLoop_spec hloop2
  refine ⟨by simp [hlen], rfl, hlast, ?_⟩
  intro rij hrij j w a b hjw hja hjb
  have hr : rijp = rij := by
    rw [hrijp] at hrij
    exact Option.some.inj hrij
  subst hr
  exact hstep j w a b hjw hja hjb

set_option maxRecDepth 8000 in
/-- C5 (witness): the intermediates theorem applied to the concrete run
of `M5` (one interaction block, intermediates requested): the returned
list has length 2. -/
theorem C5_wit_intermediates : XS5.length = M5.interactions.length + 1 :=
  (C5_intermediates M5 I0 X1 O5.1 XS5 rfl rfl rfl).1

end SPK
